import Mathlib

/-!
Verification of the data-analysis script of the Smart Plant Buddy
repository (`SensingFinalCode/dataanalysis.py`).

The script loads a mapping of sensor log records, sorts them by their
raw `timestamp`, classifies each timestamp as an absolute epoch value
or a device-uptime value, reconciles one absolute time per record
(forward/backward fill when an absolute anchor exists, a fixed-epoch
anchor otherwise), smooths the four numeric channels with a rolling
mean, and computes summary statistics (describe, mood value counts,
Pearson correlation matrix).

Modelling conventions:
* datetimes are represented by their epoch value in milliseconds
  (`Int`); `pd.to_datetime(t, unit='ms')` is therefore the identity
  on the numeric value;
* numeric sensor channels are `ℚ`; quantities that the script computes
  with a square root (standard deviation, Pearson correlation) live
  in `ℝ`;
* a missing value (pandas `NaN` / `NaT`) is `Option.none`;
* `df.sort_values` is modelled by a stable insertion sort on the
  `timestamp` key (pandas' default quicksort leaves the order of equal
  keys unspecified; every property proved below is insensitive to the
  order chosen among records with equal timestamps).
-/

namespace PlantBuddy

/-- One raw log record, as stored under `plants/plant1/logs` in the
exported JSON: a numeric `timestamp`, the four numeric sensor channels
and the categorical `mood` string. -/
structure Record where
  id : String
  timestamp : Int
  soil_raw : ℚ
  light_raw : ℚ
  temp_c : ℚ
  hum : ℚ
  mood : String
deriving DecidableEq, Repr

/-- `THRESHOLD = 10_000_000_000`, the magnitude cut used by the script
to separate epoch-millisecond timestamps from device-uptime counters. -/
def THRESHOLD : Int := 10000000000

/-- `df['is_unix_timestamp'] = df['timestamp'] > THRESHOLD`: strict
greater-than classification of a raw timestamp as absolute. -/
def is_unix_timestamp (t : Int) : Bool := t > THRESHOLD

/-- Ordering of records by their raw `timestamp` (the key passed to
`df.sort_values('timestamp')`). -/
def tsLE (a b : Record) : Prop := a.timestamp ≤ b.timestamp

instance : DecidableRel tsLE := fun a b => inferInstanceAs (Decidable (a.timestamp ≤ b.timestamp))

instance : IsTotal Record tsLE := ⟨fun a b => Int.le_total a.timestamp b.timestamp⟩

instance : IsTrans Record tsLE := ⟨fun _ _ _ h h' => le_trans h h'⟩

/-- `df = df.sort_values('timestamp')`: sort the batch ascending by raw
timestamp. -/
def sortByTimestamp (recs : List Record) : List Record := List.insertionSort tsLE recs

/-- `pd.to_datetime(t, unit='ms')` on an integer: the datetime whose
epoch-millisecond value is `t` (identity in our representation). -/
def toDatetime (t : Int) : Int := t

/-- The `datetime` column right after
`df.loc[df['is_unix_timestamp'], 'datetime'] = pd.to_datetime(...)`:
absolute rows hold their converted timestamp, uptime rows hold `NaT`. -/
def dtInit (ts : List Int) : List (Option Int) :=
  ts.map (fun t => if is_unix_timestamp t then some (toDatetime t) else none)

/-- `Series.ffill` with an explicit carry: each missing entry is
replaced by the nearest preceding present value (or by the carry when
none precedes it). -/
def ffillFrom (carry : Option Int) : List (Option Int) → List (Option Int)
  | [] => []
  | none :: rest => carry :: ffillFrom carry rest
  | some x :: rest => some x :: ffillFrom (some x) rest

/-- `Series.bfill`: each missing entry is replaced by the nearest
following present value; realised by forward-filling the reversed
sequence. -/
def bfill (l : List (Option Int)) : List (Option Int) :=
  (ffillFrom none l.reverse).reverse

/-- Case A of the script (at least one absolute timestamp present):
`df['datetime'] = df['datetime'].ffill().bfill()` applied to the
initial sparse datetime column. -/
def caseA (ts : List Int) : List (Option Int) :=
  bfill (ffillFrom none (dtInit ts))

/-- The last present value of a sparse column, seeded with a carry:
the state a forward fill holds after scanning the column. -/
def lastHit (carry : Option Int) (l : List (Option Int)) : Option Int :=
  l.foldl (fun acc x => x.or acc) carry

/-- The first present value of a sparse column — what a backward fill
propagates into the positions before it. -/
def firstHit (l : List (Option Int)) : Option Int :=
  l.foldr (fun x acc => x.or acc) none

/-- `df['timestamp'].min()` for a nonempty batch (0 as a junk default
on the empty list, which the script never reaches in this branch). -/
def tsMin : List Int → Int
  | [] => 0
  | x :: xs => xs.foldl min x

/-- `pd.to_datetime('2025-01-01')` as epoch milliseconds: the fixed,
arbitrary anchor used when no absolute timestamp exists. -/
def FIXED_EPOCH_MS : Int := 1735689600000

/-- `df['seconds_from_start'] = df['timestamp'] - df['timestamp'].min()`. -/
def caseBSeconds (ts : List Int) : List Int :=
  ts.map (fun t => t - tsMin ts)

/-- Case B datetimes:
`pd.to_datetime('2025-01-01') + pd.to_timedelta(seconds, unit='s')`,
in epoch milliseconds. -/
def caseBDatetimes (ts : List Int) : List Int :=
  (caseBSeconds ts).map (fun s => FIXED_EPOCH_MS + 1000 * s)

/-- Rounding of `10 * q` to the nearest integer, ties to even: the
rounding Python's fixed-point formatting `f'{x:.1f}'` applies at one
decimal place (exact for the decimally-representable values the claims
evaluate). -/
def round1HalfEven (q : ℚ) : Int :=
  let x : ℚ := 10 * q
  let f : Int := ⌊x⌋
  if x - f < 1 / 2 then f
  else if x - f > 1 / 2 then f + 1
  else if f % 2 = 0 then f else f + 1

/-- `f'{x:.1f}'` for a nonnegative rational: one decimal digit. -/
def fmt1 (q : ℚ) : String :=
  let n := round1HalfEven q
  toString (n / 10) ++ "." ++ toString (n % 10)

/-- Case B display labels:
`df['time_label'] = df['hours_from_start'].apply(lambda x: f'{x:.1f}h')`
with `hours_from_start = seconds_from_start / 3600`. -/
def caseBLabels (ts : List Int) : List String :=
  (caseBSeconds ts).map (fun s : Int => fmt1 ((s : ℚ) / 3600) ++ "h")

/-- The reconciled `datetime` column of the whole script: Case A
(ffill/bfill) when `df['is_unix_timestamp'].any()`, Case B (fixed
epoch + elapsed seconds) otherwise.  Entries are `Option` because the
column starts out sparse in Case A. -/
def datetimes (recs : List Record) : List (Option Int) :=
  let ts := (sortByTimestamp recs).map (·.timestamp)
  if ts.any is_unix_timestamp then caseA ts
  else (caseBDatetimes ts).map some

/-- Arithmetic mean of a list of rationals (`0` on the empty list,
matching the `NaN`-free windows the script produces). -/
def listMean (xs : List ℚ) : ℚ := xs.sum / xs.length

/-- The window `input[max(0, i-4) .. i]` used by
rolling-window smoothing at index `i`. -/
def window5 (xs : List ℚ) (i : ℕ) : List ℚ :=
  (xs.take (i + 1)).drop (i + 1 - 5)

/-- `Series.rolling(window=5, min_periods=1).mean()`: same-length
output whose entry `i` is the mean of the up-to-five inputs ending at
`i`. -/
def rollingMean5 (xs : List ℚ) : List ℚ :=
  (List.range xs.length).map (fun i => listMean (window5 xs i))

/-- First-seen deduplication of the mood column: the key order in
which a pandas hashtable reports the distinct values of a column. -/
def firstSeenKeys : List String → List String
  | [] => []
  | m :: rest => m :: (firstSeenKeys rest).filter (fun x => x != m)

/-- `df['mood'].value_counts()`: count each distinct mood, then sort
the (key, count) pairs by descending count with a stable sort, so that
ties keep the keys' first-appearance order. -/
def moodValueCounts (ms : List String) : List (String × ℕ) :=
  List.insertionSort (fun p q : String × ℕ => q.2 ≤ p.2)
    ((firstSeenKeys ms).map (fun k => (k, ms.count k)))

/-- The four numeric channels `['soil_raw', 'light_raw', 'temp_c',
'hum']` selected for `describe()` and `corr()`. -/
def channelOf : Fin 4 → Record → ℚ
  | ⟨0, _⟩ => Record.soil_raw
  | ⟨1, _⟩ => Record.light_raw
  | ⟨2, _⟩ => Record.temp_c
  | ⟨3, _⟩ => Record.hum

/-- The values of channel `i` over a batch, as reals. -/
def chanList (recs : List Record) (i : Fin 4) : List ℝ :=
  recs.map (fun r => ((channelOf i r : ℚ) : ℝ))

/-- Mean of a real-valued column. -/
noncomputable def meanR (xs : List ℝ) : ℝ := xs.sum / xs.length

/-- Sum of products of deviations of two equally long columns, the
pairwise accumulator of pandas' `nancorr` (with `NaN`-free data every
observation participates). -/
noncomputable def covSum (xs ys : List ℝ) : ℝ :=
  ((xs.zip ys).map (fun p => (p.1 - meanR xs) * (p.2 - meanR ys))).sum

/-- One cell of `df[...].corr()` (Pearson): `cov / sqrt(ssdx * ssdy)`
clipped into `[-1, 1]`, and `NaN` (here `none`) when the divisor is
zero, i.e. when either column has zero variance. -/
noncomputable def corrEntry (xs ys : List ℝ) : Option ℝ :=
  let divisor := Real.sqrt (covSum xs xs * covSum ys ys)
  if divisor = 0 then none
  else some (max (-1) (min 1 (covSum xs ys / divisor)))

/-- `corr = df[['soil_raw', 'light_raw', 'temp_c', 'hum']].corr()`:
the 4×4 Pearson matrix over the batch. -/
noncomputable def corrMatrix (recs : List Record) : Fin 4 → Fin 4 → Option ℝ :=
  fun i j =>
    corrEntry (chanList (sortByTimestamp recs) i) (chanList (sortByTimestamp recs) j)

/-- Ascending sort of a rational column (for quantiles and min/max). -/
def sortQ (xs : List ℚ) : List ℚ := List.insertionSort (· ≤ ·) xs

/-- Quantile with linear interpolation on an ascending-sorted column,
as `describe()` computes the 25th/50th/75th percentiles. -/
def quantileSorted (xs : List ℚ) (p : ℚ) : ℚ :=
  let n := xs.length
  let pos : ℚ := p * ((n : ℚ) - 1)
  let lo : ℕ := Int.toNat ⌊pos⌋
  let frac : ℚ := pos - ⌊pos⌋
  let xlo := xs.getD lo 0
  let xhi := xs.getD (lo + 1) xlo
  xlo + frac * (xhi - xlo)

/-- One row block of `df[channels].describe()`: count, mean, sample
standard deviation (`NaN` when fewer than two observations), min,
quartiles, max. -/
structure ChannelStats where
  count : ℕ
  mean : ℚ
  std : Option ℝ
  min : ℚ
  p25 : ℚ
  p50 : ℚ
  p75 : ℚ
  max : ℚ

/-- `describe()` for one numeric column. -/
noncomputable def channelStats (xs : List ℚ) : ChannelStats :=
  let n := xs.length
  let m := listMean xs
  let srt := sortQ xs
  { count := n
    mean := m
    std :=
      if n < 2 then none
      else some (Real.sqrt (((xs.map (fun x => (((x : ℚ) : ℝ) - ((m : ℚ) : ℝ)) ^ 2)).sum) / ((n : ℝ) - 1)))
    min := srt.getD 0 0
    p25 := quantileSorted srt (1 / 4)
    p50 := quantileSorted srt (1 / 2)
    p75 := quantileSorted srt (3 / 4)
    max := srt.getD (n - 1) 0 }

/-- Everything numeric the script derives from a batch: the reconciled
absolute times, the four smoothed series, the per-channel descriptive
statistics, the mood distribution and the correlation matrix. -/
structure AnalysisOutput where
  absolute_times : List (Option Int)
  soil_smooth : List ℚ
  light_smooth : List ℚ
  temp_smooth : List ℚ
  hum_smooth : List ℚ
  stats : Fin 4 → ChannelStats
  mood_distribution : List (String × ℕ)
  correlation : Fin 4 → Fin 4 → Option ℝ

/-- The whole normalization-plus-statistics pipeline of the script on
an in-memory batch. -/
noncomputable def analyze (recs : List Record) : AnalysisOutput :=
  let s := sortByTimestamp recs
  { absolute_times := datetimes recs
    soil_smooth := rollingMean5 (s.map (·.soil_raw))
    light_smooth := rollingMean5 (s.map (·.light_raw))
    temp_smooth := rollingMean5 (s.map (·.temp_c))
    hum_smooth := rollingMean5 (s.map (·.hum))
    stats := fun i => channelStats (s.map (channelOf i))
    mood_distribution := moodValueCounts (s.map (·.mood))
    correlation := corrMatrix recs }

/-- A raw JSON entry before any typing: every field may be absent
(pandas turns an absent key into `NaN`). -/
structure RawEntry where
  timestamp : Option Int
  soil_raw : Option ℚ
  light_raw : Option ℚ
  temp_c : Option ℚ
  hum : Option ℚ
  mood : Option String
deriving DecidableEq, Repr

/-- The only failure the loading code can produce: an uncaught Python
exception.  `sort_values('timestamp')` raises `KeyError('timestamp')`
when the frame has no `timestamp` column — in particular on an empty
mapping, where `DataFrame.from_dict` creates no columns at all. -/
inductive LoadError where
  | keyError : String → LoadError
deriving DecidableEq, Repr

/-- Ordering used by `sort_values('timestamp')` on possibly-missing
keys: missing values (`NaN`) sort last (`na_position='last'`). -/
def entryLE (a b : String × RawEntry) : Bool :=
  match a.2.timestamp, b.2.timestamp with
  | none, none => true
  | none, some _ => false
  | some _, none => true
  | some x, some y => x ≤ y

/-- `pd.DataFrame.from_dict(logs, orient='index')` followed by
`df.sort_values('timestamp')`.  The script performs no validation of
its own: records with missing fields other than the sort key pass
through untouched (their values are `NaN`), and the only failure mode
is the `KeyError` raised when no entry carries a `timestamp` key (the
empty mapping included). -/
def loadAndSort (logs : List (String × RawEntry)) :
    Except LoadError (List (String × RawEntry)) :=
  if logs.all (fun e => e.2.timestamp = none) then
    Except.error (LoadError.keyError "timestamp")
  else
    Except.ok (List.insertionSort (fun a b => entryLE a b) logs)

end PlantBuddy

namespace PlantBuddy

/-- Claim C2: a record is classified absolute exactly when its raw
timestamp is strictly greater than `10_000_000_000`; the boundary value
itself classifies as uptime and its successor as absolute. -/
theorem classifier_strict_threshold :
    (∀ t : Int, is_unix_timestamp t = true ↔ 10000000000 < t) ∧
    is_unix_timestamp 10000000000 = false ∧
    is_unix_timestamp 10000000001 = true := by
  refine ⟨fun t => ?_, by decide, by decide⟩
  simp [is_unix_timestamp, THRESHOLD]

/-- Claim C6, counterexample: the script performs no input validation.
An empty mapping makes `sort_values('timestamp')` raise
`KeyError('timestamp')` (there is no `EmptyDatasetError`), and a record
whose `temp_c` field is missing is accepted without any error (there is
no `MalformedRecordError`). -/
theorem no_validation_counterexample :
    loadAndSort [] = Except.error (LoadError.keyError "timestamp") ∧
    loadAndSort [("r1",
        { timestamp := some 5, soil_raw := some 1, light_raw := some 2,
          temp_c := none, hum := some 3, mood := some "happy" })] =
      Except.ok [("r1",
        { timestamp := some 5, soil_raw := some 1, light_raw := some 2,
          temp_c := none, hum := some 3, mood := some "happy" })] := by
  exact ⟨rfl, rfl⟩

/-- Claim C6, amended: loading performs no validation.  When no entry
carries a `timestamp` key (in particular for the empty mapping) the run
aborts with the uncaught `KeyError('timestamp')` from `sort_values`;
otherwise every record — malformed fields included — is kept, and the
result is a permutation (a reordering) of the input entries. -/
theorem load_no_validation :
    ∀ logs : List (String × RawEntry),
      (logs.all (fun e => e.2.timestamp = none) = true →
        loadAndSort logs = Except.error (LoadError.keyError "timestamp")) ∧
      (logs.all (fun e => e.2.timestamp = none) = false →
        ∃ l, loadAndSort logs = Except.ok l ∧ l.Perm logs) := by
  intro logs
  constructor
  · intro h
    simp [loadAndSort, h]
  · intro h
    refine ⟨List.insertionSort (fun a b => entryLE a b) logs, ?_, ?_⟩
    · simp [loadAndSort, h]
    · exact List.perm_insertionSort _ logs

/-- Claim C9: the pipeline is a pure function of its input, so two runs
on identical batches produce identical output (absolute times, smoothed
series, descriptive statistics, mood distribution, correlation
matrix). -/
theorem analyze_deterministic :
    ∀ r1 r2 : List Record, r1 = r2 → analyze r1 = analyze r2 := by
  intro r1 r2 h
  exact congrArg analyze h

/-- Witness for C9 at a concrete two-record batch. -/
theorem analyze_deterministic_witness :
    analyze
        [{ id := "a", timestamp := 5, soil_raw := 1, light_raw := 2,
           temp_c := 3, hum := 4, mood := "happy" },
         { id := "b", timestamp := 1700000000000, soil_raw := 2, light_raw := 3,
           temp_c := 4, hum := 5, mood := "dry" }] =
      analyze
        [{ id := "a", timestamp := 5, soil_raw := 1, light_raw := 2,
           temp_c := 3, hum := 4, mood := "happy" },
         { id := "b", timestamp := 1700000000000, soil_raw := 2, light_raw := 3,
           temp_c := 4, hum := 5, mood := "dry" }] :=
  analyze_deterministic _ _ rfl

end PlantBuddy


namespace PlantBuddy

lemma rollingMean5_length (xs : List ℚ) : (rollingMean5 xs).length = xs.length := by
  simp [rollingMean5]

lemma rollingMean5_getD (xs : List ℚ) (i : ℕ) (h : i < xs.length) :
    (rollingMean5 xs).getD i 0 = listMean (window5 xs i) := by
  rw [List.getD_eq_getElem _ _ (by simpa [rollingMean5_length] using h)]
  simp [rollingMean5]

/-- Claim C5: each of the four channels is smoothed by
`rolling(window=5, min_periods=1).mean()`: the output has the input's
length, entry `i` is the arithmetic mean of the up-to-five inputs
ending at `i` (all `i + 1` of them while `i + 1 ≤ 5`, exactly five
afterwards), and on `[1,2,3,4,5,6]` the output is
`[1, 1.5, 2, 2.5, 3, 4]`. -/
theorem rolling_smoother_props :
    (∀ recs : List Record,
        (analyze recs).soil_smooth = rollingMean5 ((sortByTimestamp recs).map (·.soil_raw)) ∧
        (analyze recs).light_smooth = rollingMean5 ((sortByTimestamp recs).map (·.light_raw)) ∧
        (analyze recs).temp_smooth = rollingMean5 ((sortByTimestamp recs).map (·.temp_c)) ∧
        (analyze recs).hum_smooth = rollingMean5 ((sortByTimestamp recs).map (·.hum)) ∧
        (analyze recs).soil_smooth.length = recs.length) ∧
    (∀ xs : List ℚ, (rollingMean5 xs).length = xs.length) ∧
    (∀ (xs : List ℚ) (i : ℕ), i < xs.length →
        (i + 1 ≤ 5 → (rollingMean5 xs).getD i 0 = (xs.take (i + 1)).sum / (i + 1)) ∧
        (4 ≤ i → (rollingMean5 xs).getD i 0 = ((xs.drop (i - 4)).take 5).sum / 5)) ∧
    rollingMean5 [1, 2, 3, 4, 5, 6] = [1, 3/2, 2, 5/2, 3, 4] := by
  refine ⟨fun recs => ⟨rfl, rfl, rfl, rfl, ?_⟩, rollingMean5_length, ?_,
    by norm_num [rollingMean5, List.range_succ, window5, listMean]⟩
  · show (rollingMean5 ((sortByTimestamp recs).map (·.soil_raw))).length = recs.length
    rw [rollingMean5_length, List.length_map]
    exact List.length_insertionSort _ recs
  · intro xs i h
    constructor
    · intro h5
      rw [rollingMean5_getD xs i h]
      have hz : i + 1 - 5 = 0 := by omega
      have hlen : (xs.take (i + 1)).length = i + 1 := by
        rw [List.length_take]; omega
      rw [listMean, window5, hz, List.drop_zero, hlen]
      push_cast
      ring
    · intro h4
      rw [rollingMean5_getD xs i h]
      have hw : window5 xs i = (xs.drop (i - 4)).take 5 := by
        rw [window5, List.drop_take]
        congr 1
        omega
      have hlen : ((xs.drop (i - 4)).take 5).length = 5 := by
        rw [List.length_take, List.length_drop]; omega
      rw [listMean, hw, hlen]
      norm_num

lemma fmt1_zero : fmt1 0 = "0.0" := by
  have h : round1HalfEven 0 = 0 := by unfold round1HalfEven; norm_num
  simp only [fmt1, h]
  rfl

lemma fmt1_one : fmt1 1 = "1.0" := by
  have h : round1HalfEven 1 = 10 := by unfold round1HalfEven; norm_num
  simp only [fmt1, h]
  rfl

lemma fmt1_two : fmt1 2 = "2.0" := by
  have h : round1HalfEven 2 = 20 := by unfold round1HalfEven; norm_num
  simp only [fmt1, h]
  rfl

lemma caseBLabels_example : caseBLabels [0, 3600, 7200] = ["0.0h", "1.0h", "2.0h"] := by
  have hmin : tsMin [0, 3600, 7200] = 0 := by decide
  simp only [caseBLabels, caseBSeconds, hmin, List.map_cons, List.map_nil]
  norm_num [fmt1_zero, fmt1_one, fmt1_two]
  exact ⟨rfl, rfl, rfl⟩

lemma datetimes_of_no_unix (recs : List Record)
    (h : ((sortByTimestamp recs).map (·.timestamp)).any is_unix_timestamp = false) :
    datetimes recs =
      (caseBDatetimes ((sortByTimestamp recs).map (·.timestamp))).map some := by
  simp [datetimes, h]

/-- Claim C4: with no absolute-classified record in the batch, every
record's absolute time is the fixed epoch `2025-01-01` plus the elapsed
seconds `timestamp - min(timestamp)` (our datetimes are epoch
milliseconds, hence the factor 1000), the display label is the elapsed
hours formatted to one decimal with an `h` suffix, and timestamps
`[0, 3600, 7200]` yield the labels `"0.0h"`, `"1.0h"`, `"2.0h"`. -/
theorem caseB_fixed_epoch :
    ∀ recs : List Record,
      (∀ r ∈ recs, is_unix_timestamp r.timestamp = false) →
      let ts := (sortByTimestamp recs).map (·.timestamp)
      datetimes recs = (caseBDatetimes ts).map some ∧
      (∀ i, i < ts.length →
        (caseBDatetimes ts).getD i 0 =
          FIXED_EPOCH_MS + 1000 * (ts.getD i 0 - tsMin ts) ∧
        (caseBLabels ts).getD i "" =
          fmt1 (((ts.getD i 0 - tsMin ts : Int) : ℚ) / 3600) ++ "h") ∧
      caseBLabels [0, 3600, 7200] = ["0.0h", "1.0h", "2.0h"] := by
  intro recs hall
  have hany : ((sortByTimestamp recs).map (·.timestamp)).any is_unix_timestamp = false := by
    rw [List.any_eq_false]
    intro t ht
    obtain ⟨r, hr, rfl⟩ := List.mem_map.mp ht
    have : r ∈ recs := (List.perm_insertionSort tsLE recs).mem_iff.mp hr
    simp [hall r this]
  refine ⟨datetimes_of_no_unix recs hany, ?_, caseBLabels_example⟩
  intro i hi
  have hlenS : (caseBSeconds ((sortByTimestamp recs).map (·.timestamp))).length =
      ((sortByTimestamp recs).map (·.timestamp)).length := by
    simp [caseBSeconds]
  have hi1 : i < (caseBDatetimes ((sortByTimestamp recs).map (·.timestamp))).length := by
    simpa [caseBDatetimes, hlenS] using hi
  have hi2 : i < (caseBLabels ((sortByTimestamp recs).map (·.timestamp))).length := by
    simpa [caseBLabels, hlenS] using hi
  constructor
  · rw [List.getD_eq_getElem _ _ hi1, List.getD_eq_getElem _ _ hi]
    simp only [caseBDatetimes, caseBSeconds, List.getElem_map]
  · rw [List.getD_eq_getElem _ _ hi2, List.getD_eq_getElem _ _ hi]
    simp only [caseBLabels, caseBSeconds, List.getElem_map]

/-- Witness for C4: the all-uptime batch with timestamps
`[0, 3600, 7200]`. -/
theorem caseB_fixed_epoch_witness :
    let recs : List Record :=
      [{ id := "a", timestamp := 0, soil_raw := 1, light_raw := 1,
         temp_c := 1, hum := 1, mood := "happy" },
       { id := "b", timestamp := 3600, soil_raw := 2, light_raw := 2,
         temp_c := 2, hum := 2, mood := "dry" },
       { id := "c", timestamp := 7200, soil_raw := 3, light_raw := 3,
         temp_c := 3, hum := 3, mood := "happy" }]
    let ts := (sortByTimestamp recs).map (·.timestamp)
    datetimes recs = (caseBDatetimes ts).map some ∧
    (∀ i, i < ts.length →
      (caseBDatetimes ts).getD i 0 =
        FIXED_EPOCH_MS + 1000 * (ts.getD i 0 - tsMin ts) ∧
      (caseBLabels ts).getD i "" =
        fmt1 (((ts.getD i 0 - tsMin ts : Int) : ℚ) / 3600) ++ "h") ∧
    caseBLabels [0, 3600, 7200] = ["0.0h", "1.0h", "2.0h"] :=
  caseB_fixed_epoch _ (by decide)

end PlantBuddy

namespace PlantBuddy

lemma ffillFrom_length (c : Option Int) (l : List (Option Int)) :
    (ffillFrom c l).length = l.length := by
  induction l generalizing c with
  | nil => rfl
  | cons x rest ih => cases x <;> simp [ffillFrom, ih]

lemma lastHit_cons (c : Option Int) (x : Option Int) (l : List (Option Int)) :
    lastHit c (x :: l) = lastHit (x.or c) l := rfl

lemma firstHit_cons (x : Option Int) (l : List (Option Int)) :
    firstHit (x :: l) = x.or (firstHit l) := rfl

lemma ffillFrom_getD (l : List (Option Int)) (c : Option Int) (i : ℕ) (h : i < l.length) :
    (ffillFrom c l).getD i none = (l.getD i none).or (lastHit c (l.take i)) := by
  induction l generalizing c i with
  | nil => simp at h
  | cons x rest ih =>
    cases x with
    | none =>
      cases i with
      | zero => simp [ffillFrom, lastHit]
      | succ n =>
        have hn : n < rest.length := by simpa using h
        simp only [ffillFrom, List.getD_cons_succ, List.take_succ_cons, lastHit_cons]
        exact ih c n hn
    | some v =>
      cases i with
      | zero => simp [ffillFrom]
      | succ n =>
        have hn : n < rest.length := by simpa using h
        simp only [ffillFrom, List.getD_cons_succ, List.take_succ_cons, lastHit_cons]
        exact ih (some v) n hn

lemma bfill_length (l : List (Option Int)) : (bfill l).length = l.length := by
  simp [bfill, ffillFrom_length]

lemma lastHit_reverse (l : List (Option Int)) (c : Option Int) :
    lastHit c l.reverse = (firstHit l).or c := by
  induction l generalizing c with
  | nil => rfl
  | cons x rest ih =>
    rw [List.reverse_cons]
    have happ : lastHit c (rest.reverse ++ [x]) = x.or (lastHit c rest.reverse) := by
      rw [lastHit, List.foldl_append]
      rfl
    rw [happ, ih, firstHit_cons, Option.or_assoc]

lemma bfill_getD (l : List (Option Int)) (i : ℕ) (h : i < l.length) :
    (bfill l).getD i none = (l.getD i none).or (firstHit (l.drop (i + 1))) := by
  have hlen : (ffillFrom none l.reverse).length = l.length := by
    rw [ffillFrom_length, List.length_reverse]
  have h1 : i < (ffillFrom none l.reverse).reverse.length := by
    rw [List.length_reverse, hlen]; exact h
  have hj : l.length - 1 - i < l.reverse.length := by
    rw [List.length_reverse]; omega
  have h2 : (ffillFrom none l.reverse).length - 1 - i < (ffillFrom none l.reverse).length := by
    rw [hlen]; omega
  rw [bfill, List.getD_eq_getElem _ _ h1, List.getElem_reverse,
    ← List.getD_eq_getElem _ none h2, hlen,
    ffillFrom_getD l.reverse none (l.length - 1 - i) hj]
  congr 1
  · have hi' : l.length - 1 - (l.length - 1 - i) = i := by omega
    have hii : l.length - 1 - (l.length - 1 - i) < l.length := by omega
    rw [List.getD_eq_getElem _ _ hj, List.getElem_reverse,
      ← List.getD_eq_getElem _ none (by omega : l.length - 1 - (l.length - 1 - i) < l.length),
      hi']
  · rw [List.take_reverse, lastHit_reverse, Option.or_none]
    have : l.length - (l.length - 1 - i) = i + 1 := by omega
    rw [this]

lemma dtInit_length (ts : List Int) : (dtInit ts).length = ts.length := by
  simp [dtInit]

lemma dtInit_getD (ts : List Int) (i : ℕ) (h : i < ts.length) :
    (dtInit ts).getD i none =
      if is_unix_timestamp (ts.getD i 0) then some (toDatetime (ts.getD i 0)) else none := by
  have h' : i < (dtInit ts).length := by rwa [dtInit_length]
  rw [List.getD_eq_getElem _ _ h', List.getD_eq_getElem _ _ h]
  simp [dtInit]

lemma lastHit_dtInit (xs : List Int) (c : Option Int) :
    lastHit c (dtInit xs) = (xs.reverse.find? is_unix_timestamp).or c := by
  induction xs generalizing c with
  | nil => rfl
  | cons x rest ih =>
    simp only [dtInit, List.map_cons, lastHit_cons, List.reverse_cons, List.find?_append]
    rw [show List.map (fun t => if is_unix_timestamp t then some (toDatetime t) else none) rest
        = dtInit rest from rfl, ih, Option.or_assoc]
    congr 1
    cases hx : is_unix_timestamp x <;> simp [List.find?_cons, hx, toDatetime]

lemma or_some_left (a : Int) (x : Option Int) : (some a).or x = some a := rfl

lemma firstHit_dtInit (xs : List Int) :
    firstHit (dtInit xs) = (xs.find? is_unix_timestamp).map toDatetime := by
  induction xs with
  | nil => rfl
  | cons x rest ih =>
    rw [show dtInit (x :: rest)
        = (if is_unix_timestamp x then some (toDatetime x) else none) :: dtInit rest from rfl,
      firstHit_cons, List.find?_cons]
    cases hx : is_unix_timestamp x
    · simpa [hx] using ih
    · simp [hx, or_some_left]

lemma ffillFrom_drop (l : List (Option Int)) (c : Option Int) (n : ℕ) :
    (ffillFrom c l).drop n = ffillFrom (lastHit c (l.take n)) (l.drop n) := by
  induction l generalizing c n with
  | nil => simp [ffillFrom]
  | cons x rest ih =>
    cases n with
    | zero => simp [lastHit]
    | succ m =>
      cases x with
      | none =>
        simp only [ffillFrom, List.drop_succ_cons, List.take_succ_cons, lastHit_cons]
        exact ih c m
      | some v =>
        simp only [ffillFrom, List.drop_succ_cons, List.take_succ_cons, lastHit_cons]
        exact ih (some v) m

lemma firstHit_ffillFrom_none (l : List (Option Int)) :
    firstHit (ffillFrom none l) = firstHit l := by
  induction l with
  | nil => rfl
  | cons x rest ih =>
    cases x with
    | none => simp only [ffillFrom, firstHit_cons, Option.none_or]; exact ih
    | some v => rfl

lemma caseA_length (ts : List Int) : (caseA ts).length = ts.length := by
  rw [caseA, bfill_length, ffillFrom_length, dtInit_length]

lemma caseA_getD (ts : List Int) (i : ℕ) (h : i < ts.length) :
    (caseA ts).getD i none =
      if is_unix_timestamp (ts.getD i 0) then some (toDatetime (ts.getD i 0))
      else ((ts.take i).reverse.find? is_unix_timestamp).or
        (((ts.drop (i + 1)).find? is_unix_timestamp).map toDatetime) := by
  have hd : i < (dtInit ts).length := by rwa [dtInit_length]
  have hf : i < (ffillFrom none (dtInit ts)).length := by rwa [ffillFrom_length]
  rw [caseA, bfill_getD _ i hf, ffillFrom_getD _ none i hd, ffillFrom_drop]
  rw [show (dtInit ts).take i = dtInit (ts.take i) from by rw [dtInit, dtInit, List.map_take],
    show (dtInit ts).drop (i + 1) = dtInit (ts.drop (i + 1)) from by
      rw [dtInit, dtInit, List.map_drop],
    show (dtInit ts).take (i + 1) = dtInit (ts.take (i + 1)) from by
      rw [dtInit, dtInit, List.map_take]]
  rw [lastHit_dtInit, Option.or_none, dtInit_getD ts i h]
  cases hx : is_unix_timestamp (ts.getD i 0)
  · rw [if_neg (by simp [hx]), if_neg (by simp [hx]), Option.none_or]
    cases hP : (ts.take i).reverse.find? is_unix_timestamp
    · rw [Option.none_or, Option.none_or]
      have hcarry : lastHit none (dtInit (ts.take (i + 1))) = none := by
        rw [lastHit_dtInit, Option.or_none, List.find?_eq_none]
        intro x hxmem
        rw [List.mem_reverse, List.take_succ] at hxmem
        rcases List.mem_append.mp hxmem with hmem | hmem
        · exact (List.find?_eq_none.mp hP) x (List.mem_reverse.mpr hmem)
        · rw [List.getElem?_eq_getElem h] at hmem
          have hx2 : x = ts.getD i 0 := by
            rw [List.getD_eq_getElem _ _ h]
            simpa using hmem
          rw [hx2, hx]
          simp
      rw [hcarry, firstHit_ffillFrom_none, firstHit_dtInit]
    · rw [or_some_left, or_some_left]
  · rw [if_pos (by simp [hx]), if_pos (by simp [hx]), or_some_left, or_some_left]

lemma ts_sorted (recs : List Record) :
    List.Sorted (· ≤ ·) ((sortByTimestamp recs).map (·.timestamp)) :=
  List.Pairwise.map _ (fun _ _ h => h) (List.sorted_insertionSort tsLE recs)

lemma sorted_getD_le {xs : List Int} (hs : List.Sorted (· ≤ ·) xs) {i j : ℕ}
    (hij : i ≤ j) (hj : j < xs.length) : xs.getD i 0 ≤ xs.getD j 0 := by
  rcases lt_or_eq_of_le hij with hl | rfl
  · have hi : i < xs.length := lt_trans hl hj
    have h := hs.rel_get_of_lt (a := ⟨i, hi⟩) (b := ⟨j, hj⟩) hl
    rw [List.getD_eq_getElem _ _ hi, List.getD_eq_getElem _ _ hj]
    simpa [List.get_eq_getElem] using h
  · exact le_refl _

lemma not_unix_of_le {xs : List Int} (hs : List.Sorted (· ≤ ·) xs) {i j : ℕ}
    (hj : j ≤ i) (hi : i < xs.length)
    (hx : is_unix_timestamp (xs.getD i 0) = false) :
    is_unix_timestamp (xs.getD j 0) = false := by
  have hle := sorted_getD_le hs hj hi
  simp only [is_unix_timestamp, decide_eq_false_iff_not, not_lt] at hx ⊢
  omega

lemma no_unix_before {xs : List Int} (hs : List.Sorted (· ≤ ·) xs) {i : ℕ}
    (hi : i < xs.length) (hx : is_unix_timestamp (xs.getD i 0) = false) :
    (xs.take i).reverse.find? is_unix_timestamp = none := by
  rw [List.find?_eq_none]
  intro x hmem
  rw [List.mem_reverse] at hmem
  obtain ⟨j, hjlen, rfl⟩ := List.mem_iff_getElem.mp hmem
  rw [List.getElem_take]
  have hj : j ≤ i := by rw [List.length_take] at hjlen; omega
  have hjx : j < xs.length := by rw [List.length_take] at hjlen; omega
  rw [← List.getD_eq_getElem xs 0 hjx, not_unix_of_le hs hj hi hx]
  simp

lemma find?_first_le {xs : List Int} (hs : List.Sorted (· ≤ ·) xs) {f : Int}
    (hf : xs.find? is_unix_timestamp = some f) :
    ∀ x ∈ xs, is_unix_timestamp x = true → f ≤ x := by
  induction xs with
  | nil => simp at hf
  | cons a rest ih =>
    rw [List.find?_cons] at hf
    cases ha : is_unix_timestamp a
    · simp only [ha] at hf
      intro x hx hux
      rcases List.mem_cons.mp hx with rfl | hx'
      · rw [hux] at ha; exact absurd ha (by simp)
      · exact ih hs.of_cons hf x hx' hux
    · simp only [ha] at hf
      have haf : a = f := Option.some.inj hf
      intro x hx hux
      rcases List.mem_cons.mp hx with rfl | hx'
      · exact le_of_eq haf.symm
      · exact haf ▸ List.rel_of_sorted_cons hs x hx'

lemma caseA_getD_sorted {ts : List Int} (hs : List.Sorted (· ≤ ·) ts) {i : ℕ}
    (hi : i < ts.length) :
    (caseA ts).getD i none =
      if is_unix_timestamp (ts.getD i 0) then some (ts.getD i 0)
      else (ts.find? is_unix_timestamp).map toDatetime := by
  rw [caseA_getD ts i hi]
  cases hx : is_unix_timestamp (ts.getD i 0)
  · rw [if_neg (by simp [hx]), if_neg (by simp [hx]), no_unix_before hs hi hx, Option.none_or]
    congr 1
    conv_rhs => rw [← List.take_append_drop (i + 1) ts]
    rw [List.find?_append]
    have htake : (ts.take (i + 1)).find? is_unix_timestamp = none := by
      rw [List.find?_eq_none]
      intro x hmem
      obtain ⟨j, hjlen, rfl⟩ := List.mem_iff_getElem.mp hmem
      rw [List.getElem_take]
      have hj : j ≤ i := by rw [List.length_take] at hjlen; omega
      have hjx : j < ts.length := by rw [List.length_take] at hjlen; omega
      rw [← List.getD_eq_getElem ts 0 hjx, not_unix_of_le hs hj hi hx]
      simp
    rw [htake, Option.none_or]
  · rw [if_pos (by simp [hx]), if_pos (by simp [hx])]
    rfl

lemma ffillFrom_all_some {l : List (Option Int)} (h : ∀ o ∈ l, o.isSome = true)
    (c : Option Int) : ffillFrom c l = l := by
  induction l generalizing c with
  | nil => rfl
  | cons x rest ih =>
    cases x with
    | none => exact absurd (h none (by simp)) (by simp)
    | some v =>
      rw [show ffillFrom c (some v :: rest) = some v :: ffillFrom (some v) rest from rfl,
        ih (fun o ho => h o (List.mem_cons_of_mem _ ho)) (some v)]

lemma ffill_id_of_sorted {ts : List Int} (hs : List.Sorted (· ≤ ·) ts) :
    ffillFrom none (dtInit ts) = dtInit ts := by
  induction ts with
  | nil => rfl
  | cons x rest ih =>
    rw [show dtInit (x :: rest)
        = (if is_unix_timestamp x then some (toDatetime x) else none) :: dtInit rest from rfl]
    cases hx : is_unix_timestamp x
    · rw [if_neg (by simp [hx]),
        show ffillFrom none (none :: dtInit rest) = none :: ffillFrom none (dtInit rest) from rfl,
        ih hs.of_cons]
    · rw [if_pos (by simp [hx]),
        show ffillFrom none (some (toDatetime x) :: dtInit rest)
          = some (toDatetime x) :: ffillFrom (some (toDatetime x)) (dtInit rest) from rfl]
      have hall : ∀ o ∈ dtInit rest, o.isSome = true := by
        intro o ho
        obtain ⟨t, ht, rfl⟩ := List.mem_map.mp ho
        have hxt := List.rel_of_sorted_cons hs t ht
        have hut : is_unix_timestamp t = true := by
          simp only [is_unix_timestamp, decide_eq_true_eq] at hx ⊢
          omega
        simp [hut]
      rw [ffillFrom_all_some hall (some (toDatetime x))]

lemma exists_unix_ts {recs : List Record}
    (h : ∃ r ∈ recs, is_unix_timestamp r.timestamp = true) :
    ∃ t ∈ (sortByTimestamp recs).map (·.timestamp), is_unix_timestamp t = true := by
  obtain ⟨r, hr, hu⟩ := h
  exact ⟨r.timestamp,
    List.mem_map.mpr ⟨r, (List.perm_insertionSort tsLE recs).mem_iff.mpr hr, rfl⟩, hu⟩

end PlantBuddy

namespace PlantBuddy

/-- Claim C1: in a sorted batch with at least one absolute-classified
record, every absolute record's datetime is its own timestamp converted
as epoch milliseconds; every uptime record inherits the datetime of the
nearest preceding absolute record (forward fill), and an uptime record
with no preceding absolute record inherits the first absolute record's
datetime (backward fill) — the uptime delta is discarded, never
projected. -/
theorem caseA_fill_assignment :
    ∀ recs : List Record,
      (∃ r ∈ recs, is_unix_timestamp r.timestamp = true) →
      let ts := (sortByTimestamp recs).map (·.timestamp)
      datetimes recs = caseA ts ∧
      (caseA ts).length = recs.length ∧
      (∀ i, i < ts.length →
        (is_unix_timestamp (ts.getD i 0) = true →
          (caseA ts).getD i none = some (toDatetime (ts.getD i 0))) ∧
        (is_unix_timestamp (ts.getD i 0) = false →
          (∀ p, (ts.take i).reverse.find? is_unix_timestamp = some p →
            (caseA ts).getD i none = some (toDatetime p)) ∧
          ((ts.take i).reverse.find? is_unix_timestamp = none →
            (caseA ts).getD i none = (ts.find? is_unix_timestamp).map toDatetime))) := by
  intro recs hex
  have hany : ((sortByTimestamp recs).map (·.timestamp)).any is_unix_timestamp = true :=
    List.any_eq_true.mpr (exists_unix_ts hex)
  refine ⟨by simp [datetimes, hany], ?_, ?_⟩
  · rw [caseA_length, List.length_map]
    exact List.length_insertionSort tsLE recs
  · intro i hi
    refine ⟨fun hx => ?_, fun hx => ⟨fun p hp => ?_, fun hp => ?_⟩⟩
    · rw [caseA_getD _ i hi, if_pos hx]
    · rw [caseA_getD _ i hi, if_neg (ne_true_of_eq_false hx), hp, or_some_left]
      rfl
    · rw [caseA_getD _ i hi, if_neg (ne_true_of_eq_false hx), hp, Option.none_or]
      congr 1
      have htake : (((sortByTimestamp recs).map (·.timestamp)).take (i + 1)).find?
          is_unix_timestamp = none := by
        rw [List.find?_eq_none]
        intro x hmem
        rw [List.take_succ] at hmem
        rcases List.mem_append.mp hmem with hmem | hmem
        · exact (List.find?_eq_none.mp hp) x (List.mem_reverse.mpr hmem)
        · rw [List.getElem?_eq_getElem hi] at hmem
          have hx2 : x = ((sortByTimestamp recs).map (·.timestamp)).getD i 0 := by
            rw [List.getD_eq_getElem _ _ hi]
            simpa using hmem
          rw [hx2, hx]
          simp
      conv_rhs => rw [← List.take_append_drop (i + 1) ((sortByTimestamp recs).map (·.timestamp))]
      rw [List.find?_append, htake, Option.none_or]

/-- Witness for C1: the mixed batch with raw timestamps
`[5000, 1700000000000, 6000]` has an absolute record, and the whole
reconciled column is the ffill-bfill of the sparse datetime column. -/
theorem caseA_fill_assignment_witness :
    datetimes
        [{ id := "a", timestamp := 5000, soil_raw := 1, light_raw := 1,
           temp_c := 1, hum := 1, mood := "happy" },
         { id := "b", timestamp := 1700000000000, soil_raw := 2, light_raw := 2,
           temp_c := 2, hum := 2, mood := "dry" },
         { id := "c", timestamp := 6000, soil_raw := 3, light_raw := 3,
           temp_c := 3, hum := 3, mood := "happy" }] =
      caseA ((sortByTimestamp
        [{ id := "a", timestamp := 5000, soil_raw := 1, light_raw := 1,
           temp_c := 1, hum := 1, mood := "happy" },
         { id := "b", timestamp := 1700000000000, soil_raw := 2, light_raw := 2,
           temp_c := 2, hum := 2, mood := "dry" },
         { id := "c", timestamp := 6000, soil_raw := 3, light_raw := 3,
           temp_c := 3, hum := 3, mood := "happy" }]).map (·.timestamp)) :=
  (caseA_fill_assignment _ (by decide)).1

/-- Claim C3: the batch is sorted ascending by raw timestamp before
reconciliation (the sorted list is a permutation of the input), and in
the presence of at least one absolute record the assigned datetime
column is everywhere present and monotone non-decreasing along the
sorted order. -/
theorem sorted_then_monotonic :
    ∀ recs : List Record,
      (∃ r ∈ recs, is_unix_timestamp r.timestamp = true) →
      let ts := (sortByTimestamp recs).map (·.timestamp)
      List.Sorted (· ≤ ·) ts ∧
      (sortByTimestamp recs).Perm recs ∧
      (∀ i, i < ts.length → ((caseA ts).getD i none).isSome = true) ∧
      (∀ i j, i ≤ j → j < ts.length → ∀ a b,
        (caseA ts).getD i none = some a → (caseA ts).getD j none = some b → a ≤ b) := by
  intro recs hex
  have hs := ts_sorted recs
  obtain ⟨f, hf⟩ := Option.isSome_iff_exists.mp (List.find?_isSome.mpr (exists_unix_ts hex))
  refine ⟨hs, List.perm_insertionSort tsLE recs, ?_, ?_⟩
  · intro i hi
    rw [caseA_getD_sorted hs hi]
    cases hx : is_unix_timestamp (((sortByTimestamp recs).map (·.timestamp)).getD i 0)
    · rw [if_neg (by simp), hf]
      rfl
    · rw [if_pos rfl]
      rfl
  · intro i j hij hj a b ha hb
    have hi : i < ((sortByTimestamp recs).map (·.timestamp)).length := lt_of_le_of_lt hij hj
    rw [caseA_getD_sorted hs hi] at ha
    rw [caseA_getD_sorted hs hj] at hb
    cases hxi : is_unix_timestamp (((sortByTimestamp recs).map (·.timestamp)).getD i 0) <;>
      cases hxj : is_unix_timestamp (((sortByTimestamp recs).map (·.timestamp)).getD j 0)
    · rw [if_neg (ne_true_of_eq_false hxi), hf] at ha
      rw [if_neg (ne_true_of_eq_false hxj), hf] at hb
      have h1 : toDatetime f = a := Option.some.inj ha
      have h2 : toDatetime f = b := Option.some.inj hb
      rw [← h1, ← h2]
    · rw [if_neg (ne_true_of_eq_false hxi), hf] at ha
      rw [if_pos hxj] at hb
      have h1 : toDatetime f = a := Option.some.inj ha
      have h2 := Option.some.inj hb
      rw [← h1, ← h2]
      have hmem : ((sortByTimestamp recs).map (·.timestamp)).getD j 0
          ∈ (sortByTimestamp recs).map (·.timestamp) := by
        rw [List.getD_eq_getElem _ _ hj]
        exact List.getElem_mem hj
      exact find?_first_le hs hf _ hmem hxj
    · exfalso
      have := not_unix_of_le hs hij hj hxj
      rw [this] at hxi
      exact absurd hxi (by simp)
    · rw [if_pos hxi] at ha
      rw [if_pos hxj] at hb
      rw [← Option.some.inj ha, ← Option.some.inj hb]
      exact sorted_getD_le hs hij hj

/-- Witness for C3 at the mixed batch `[5000, 1700000000000, 6000]`:
the sorted timestamp column really is sorted. -/
theorem sorted_then_monotonic_witness :
    List.Sorted (· ≤ ·) ((sortByTimestamp
        [{ id := "a", timestamp := 5000, soil_raw := 1, light_raw := 1,
           temp_c := 1, hum := 1, mood := "happy" },
         { id := "b", timestamp := 1700000000000, soil_raw := 2, light_raw := 2,
           temp_c := 2, hum := 2, mood := "dry" },
         { id := "c", timestamp := 6000, soil_raw := 3, light_raw := 3,
           temp_c := 3, hum := 3, mood := "happy" }]).map (·.timestamp)) :=
  (sorted_then_monotonic _ (by decide)).1

/-- Claim C10 (implicit): after sorting, every uptime record sits
strictly before every absolute record, so the forward fill leaves the
sparse datetime column unchanged and every uptime record receives the
first absolute record's datetime from the backward fill. -/
theorem uptime_before_absolute :
    ∀ recs : List Record,
      (∃ r ∈ recs, is_unix_timestamp r.timestamp = true) →
      let ts := (sortByTimestamp recs).map (·.timestamp)
      (∀ i j, i < ts.length → j < ts.length →
        is_unix_timestamp (ts.getD i 0) = false →
        is_unix_timestamp (ts.getD j 0) = true → i < j) ∧
      ffillFrom none (dtInit ts) = dtInit ts ∧
      (ts.find? is_unix_timestamp).isSome = true ∧
      (∀ i, i < ts.length → is_unix_timestamp (ts.getD i 0) = false →
        (caseA ts).getD i none = (ts.find? is_unix_timestamp).map toDatetime) := by
  intro recs hex
  have hs := ts_sorted recs
  refine ⟨?_, ffill_id_of_sorted hs, List.find?_isSome.mpr (exists_unix_ts hex), ?_⟩
  · intro i j hi hj hxi hxj
    by_contra hij
    push_neg at hij
    have := not_unix_of_le hs hij hi hxi
    rw [this] at hxj
    exact absurd hxj (by simp)
  · intro i hi hx
    rw [caseA_getD_sorted hs hi, if_neg (ne_true_of_eq_false hx)]

/-- Witness for C10 at the mixed batch `[5000, 1700000000000, 6000]`:
the forward fill leaves the sparse column unchanged. -/
theorem uptime_before_absolute_witness :
    ffillFrom none (dtInit ((sortByTimestamp
        [{ id := "a", timestamp := 5000, soil_raw := 1, light_raw := 1,
           temp_c := 1, hum := 1, mood := "happy" },
         { id := "b", timestamp := 1700000000000, soil_raw := 2, light_raw := 2,
           temp_c := 2, hum := 2, mood := "dry" },
         { id := "c", timestamp := 6000, soil_raw := 3, light_raw := 3,
           temp_c := 3, hum := 3, mood := "happy" }]).map (·.timestamp)))
      = dtInit ((sortByTimestamp
        [{ id := "a", timestamp := 5000, soil_raw := 1, light_raw := 1,
           temp_c := 1, hum := 1, mood := "happy" },
         { id := "b", timestamp := 1700000000000, soil_raw := 2, light_raw := 2,
           temp_c := 2, hum := 2, mood := "dry" },
         { id := "c", timestamp := 6000, soil_raw := 3, light_raw := 3,
           temp_c := 3, hum := 3, mood := "happy" }]).map (·.timestamp)) :=
  (uptime_before_absolute _ (by decide)).2.1

end PlantBuddy


namespace PlantBuddy

lemma zip_self (xs : List ℝ) : xs.zip xs = xs.map (fun x => (x, x)) := by
  induction xs with
  | nil => rfl
  | cons x rest ih => simp [ih]

lemma covSum_self (xs : List ℝ) :
    covSum xs xs = (xs.map (fun x => (x - meanR xs) * (x - meanR xs))).sum := by
  rw [covSum, zip_self, List.map_map]
  rfl

lemma covSum_self_nonneg (xs : List ℝ) : 0 ≤ covSum xs xs := by
  rw [covSum_self]
  apply List.sum_nonneg
  intro y hy
  obtain ⟨x, _, rfl⟩ := List.mem_map.mp hy
  exact mul_self_nonneg _

lemma covSum_chan_comm (recs : List Record) (i j : Fin 4) :
    covSum (chanList recs i) (chanList recs j)
      = covSum (chanList recs j) (chanList recs i) := by
  rw [covSum, covSum, chanList, chanList, List.zip_map', List.zip_map',
    List.map_map, List.map_map]
  congr 1
  exact List.map_congr_left (fun r _ => mul_comm _ _)

/-- Claim C7: for any batch of at least two records the Pearson matrix
over the four channels is symmetric; a channel with nonzero squared
deviation has diagonal cell exactly `1.0`; a channel with zero squared
deviation (zero variance) makes every cell involving it `NaN` (`none`)
without any error, the rest of the matrix being computed normally. -/
theorem corr_matrix_props :
    ∀ recs : List Record, 2 ≤ recs.length →
      (∀ i j, corrMatrix recs i j = corrMatrix recs j i) ∧
      (∀ i, covSum (chanList (sortByTimestamp recs) i)
          (chanList (sortByTimestamp recs) i) ≠ 0 →
        corrMatrix recs i i = some 1) ∧
      (∀ i j, covSum (chanList (sortByTimestamp recs) i)
          (chanList (sortByTimestamp recs) i) = 0 →
        corrMatrix recs i j = none ∧ corrMatrix recs j i = none) := by
  intro recs _
  refine ⟨?_, ?_, ?_⟩
  · intro i j
    show corrEntry _ _ = corrEntry _ _
    simp only [corrEntry]
    rw [covSum_chan_comm (sortByTimestamp recs) i j,
      mul_comm (covSum (chanList (sortByTimestamp recs) i) (chanList (sortByTimestamp recs) i))
        (covSum (chanList (sortByTimestamp recs) j) (chanList (sortByTimestamp recs) j))]
  · intro i hne
    have hpos : 0 ≤ covSum (chanList (sortByTimestamp recs) i)
        (chanList (sortByTimestamp recs) i) := covSum_self_nonneg _
    show corrEntry _ _ = some 1
    simp only [corrEntry]
    rw [Real.sqrt_mul_self hpos, if_neg hne, div_self hne]
    norm_num
  · intro i j hzero
    constructor
    · show corrEntry _ _ = none
      simp only [corrEntry]
      rw [if_pos (by rw [hzero, zero_mul, Real.sqrt_zero])]
    · show corrEntry _ _ = none
      simp only [corrEntry]
      rw [if_pos (by rw [hzero, mul_zero, Real.sqrt_zero])]

/-- Witness for C7: symmetry of the (0,1) cell at a concrete
two-record batch. -/
theorem corr_matrix_props_witness :
    corrMatrix
        [{ id := "a", timestamp := 1, soil_raw := 1, light_raw := 2,
           temp_c := 3, hum := 4, mood := "happy" },
         { id := "b", timestamp := 2, soil_raw := 2, light_raw := 1,
           temp_c := 5, hum := 6, mood := "dry" }] 0 1 =
      corrMatrix
        [{ id := "a", timestamp := 1, soil_raw := 1, light_raw := 2,
           temp_c := 3, hum := 4, mood := "happy" },
         { id := "b", timestamp := 2, soil_raw := 2, light_raw := 1,
           temp_c := 5, hum := 6, mood := "dry" }] 1 0 :=
  (corr_matrix_props _ (by decide)).1 0 1

end PlantBuddy

namespace PlantBuddy

lemma firstSeenKeys_nodup (ms : List String) : (firstSeenKeys ms).Nodup := by
  induction ms with
  | nil => simp [firstSeenKeys]
  | cons m rest ih =>
    rw [firstSeenKeys, List.nodup_cons]
    refine ⟨?_, ih.filter _⟩
    intro hmem
    have := (List.mem_filter.mp hmem).2
    simp at this

lemma firstSeenKeys_mem (ms : List String) (x : String) :
    x ∈ firstSeenKeys ms ↔ x ∈ ms := by
  induction ms with
  | nil => simp [firstSeenKeys]
  | cons m rest ih =>
    rw [firstSeenKeys]
    constructor
    · intro h
      rcases List.mem_cons.mp h with rfl | h'
      · exact List.mem_cons_self _ _
      · exact List.mem_cons_of_mem _ (ih.mp (List.mem_filter.mp h').1)
    · intro h
      rcases List.mem_cons.mp h with rfl | h'
      · exact List.mem_cons_self _ _
      · by_cases hxm : x = m
        · subst hxm; exact List.mem_cons_self _ _
        · exact List.mem_cons_of_mem _
            (List.mem_filter.mpr ⟨ih.mpr h', by simp [hxm]⟩)

lemma firstSeenKeys_pairwise (ms : List String) :
    (firstSeenKeys ms).Pairwise
      (fun a b => ms.findIdx (fun x => x == a) < ms.findIdx (fun x => x == b)) := by
  induction ms with
  | nil => simp [firstSeenKeys]
  | cons m rest ih =>
    rw [firstSeenKeys, List.pairwise_cons]
    constructor
    · intro b hb
      have hbm : b ≠ m := by
        have := (List.mem_filter.mp hb).2
        simpa using this
      rw [List.findIdx_cons, List.findIdx_cons, beq_self_eq_true,
        beq_eq_false_iff_ne.mpr (Ne.symm hbm)]
      simp
    · apply List.Pairwise.imp_of_mem ?_ ((ih).filter _)
      intro a b ha hb hab
      have ham : a ≠ m := by
        have := (List.mem_filter.mp ha).2
        simpa using this
      have hbm : b ≠ m := by
        have := (List.mem_filter.mp hb).2
        simpa using this
      rw [List.findIdx_cons, List.findIdx_cons,
        beq_eq_false_iff_ne.mpr (Ne.symm ham), beq_eq_false_iff_ne.mpr (Ne.symm hbm)]
      simpa using hab

lemma orderedInsert_pairwise_stable {α : Type} (key : α → ℕ) (Q : α → α → Prop) (a : α) :
    ∀ m : List α,
      m.Pairwise (fun x y => key y < key x ∨ (key x = key y ∧ Q x y)) →
      (∀ b ∈ m, Q a b) →
      (List.orderedInsert (fun x y => key y ≤ key x) a m).Pairwise
        (fun x y => key y < key x ∨ (key x = key y ∧ Q x y)) := by
  intro m
  induction m with
  | nil =>
    intro _ _
    simp
  | cons b m ih =>
    intro hm ha
    by_cases h : key b ≤ key a
    · rw [List.orderedInsert_of_le (fun x y => key y ≤ key x) m h, List.pairwise_cons]
      refine ⟨?_, hm⟩
      intro c hc
      rcases List.mem_cons.mp hc with rfl | hc'
      · rcases lt_or_eq_of_le h with hlt | heq
        · exact Or.inl hlt
        · exact Or.inr ⟨heq.symm, ha c (List.mem_cons_self _ _)⟩
      · have hbc := (List.pairwise_cons.mp hm).1 c hc'
        rcases hbc with hlt | ⟨heq, _⟩
        · exact Or.inl (lt_of_lt_of_le hlt h)
        · rcases lt_or_eq_of_le (heq ▸ h) with hlt | heq2
          · exact Or.inl hlt
          · exact Or.inr ⟨heq2.symm, ha c (List.mem_cons_of_mem _ hc')⟩
    · rw [show List.orderedInsert (fun x y => key y ≤ key x) a (b :: m)
          = b :: List.orderedInsert (fun x y => key y ≤ key x) a m from by
        simp [List.orderedInsert, h]]
      rw [List.pairwise_cons]
      constructor
      · intro c hc
        rcases (List.mem_orderedInsert _).mp hc with rfl | hc'
        · exact Or.inl (not_le.mp h)
        · exact (List.pairwise_cons.mp hm).1 c hc'
      · exact ih (List.pairwise_cons.mp hm).2
          (fun b' hb' => ha b' (List.mem_cons_of_mem _ hb'))

lemma insertionSort_pairwise_stable {α : Type} (key : α → ℕ) (Q : α → α → Prop) :
    ∀ l : List α, l.Pairwise Q →
      (List.insertionSort (fun x y => key y ≤ key x) l).Pairwise
        (fun x y => key y < key x ∨ (key x = key y ∧ Q x y)) := by
  intro l
  induction l with
  | nil =>
    intro _
    simp
  | cons a l ih =>
    intro h
    rw [show List.insertionSort (fun x y => key y ≤ key x) (a :: l)
        = List.orderedInsert (fun x y => key y ≤ key x) a
            (List.insertionSort (fun x y => key y ≤ key x) l) from rfl]
    apply orderedInsert_pairwise_stable key Q a _ (ih (List.pairwise_cons.mp h).2)
    intro b hb
    exact (List.pairwise_cons.mp h).1 b ((List.mem_insertionSort _).mp hb)

/-- Claim C8: the mood distribution maps each distinct mood of the
reconciled sequence to its number of occurrences, ordered by strictly
descending count with ties broken by the mood's first appearance in the
reconciled sequence. -/
theorem mood_value_counts_props :
    (∀ recs : List Record,
        (analyze recs).mood_distribution
          = moodValueCounts ((sortByTimestamp recs).map (·.mood))) ∧
    ∀ ms : List String,
      ((moodValueCounts ms).map Prod.fst).Nodup ∧
      (∀ m, m ∈ (moodValueCounts ms).map Prod.fst ↔ m ∈ ms) ∧
      (∀ p ∈ moodValueCounts ms, p.2 = ms.count p.1) ∧
      (moodValueCounts ms).Pairwise (fun p q =>
        q.2 < p.2 ∨ (p.2 = q.2 ∧
          ms.findIdx (fun x => x == p.1) < ms.findIdx (fun x => x == q.1))) := by
  refine ⟨fun recs => rfl, fun ms => ?_⟩
  have hperm : (moodValueCounts ms).Perm
      ((firstSeenKeys ms).map (fun k => (k, ms.count k))) :=
    List.perm_insertionSort _ _
  have hkeys : ((moodValueCounts ms).map Prod.fst).Perm (firstSeenKeys ms) := by
    have h := hperm.map Prod.fst
    rw [List.map_map] at h
    have hid : (Prod.fst ∘ fun k : String => (k, ms.count k)) = id := funext fun k => rfl
    rw [hid, List.map_id] at h
    exact h
  refine ⟨?_, ?_, ?_, ?_⟩
  · exact (hkeys.nodup_iff).mpr (firstSeenKeys_nodup ms)
  · intro m
    rw [hkeys.mem_iff, firstSeenKeys_mem]
  · intro p hp
    obtain ⟨k, _, rfl⟩ := List.mem_map.mp (hperm.mem_iff.mp hp)
    rfl
  · have hpair : ((firstSeenKeys ms).map (fun k => (k, ms.count k))).Pairwise
        (fun p q : String × ℕ =>
          ms.findIdx (fun x => x == p.1) < ms.findIdx (fun x => x == q.1)) :=
      List.Pairwise.map _ (fun a b hab => hab) (firstSeenKeys_pairwise ms)
    exact insertionSort_pairwise_stable (fun p : String × ℕ => p.2)
      (fun p q => ms.findIdx (fun x => x == p.1) < ms.findIdx (fun x => x == q.1))
      ((firstSeenKeys ms).map (fun k => (k, ms.count k))) hpair

end PlantBuddy
